import Mathlib

/-!
# Verification of the video-processor operation compiler and batch sequencer

Shallow embedding of `src/video-processor-rust/src/main.rs` (the `VideoProcessor`
methods `process_single_operation`, `process_batch_operations` and `run_ffmpeg`),
together with theorems about the embedded definitions.

Modelling conventions:
* `serde_json::Value` is modelled by `JValue`; JSON numbers keep the serde
  distinction between integer-represented numbers (`JNum.int`, Rust `i64`)
  and float-represented numbers (`JNum.float`).  `f64` payloads are modelled
  as exact rationals (every claim under consideration only involves exact
  decimal values, where `f64` arithmetic coincides with `ℚ` arithmetic).
* `HashMap<String, serde_json::Value>` is modelled as an association list with
  first-match lookup (hash maps have unique keys, so first-match is faithful).
* The external `ffmpeg` process is an oracle `exec : List String → ExecResult`
  passed as a parameter; `run_ffmpeg` wraps it exactly as the Rust wrapper does.
* Fresh output names (`output_{uuid}.mp4`) are modelled by a name supply
  `names : Nat → String`; uniqueness of UUIDs becomes freshness hypotheses.
* Filesystem effects of the batch loop are tracked explicitly in `BatchState`:
  `files` is the set of pipeline-created files currently existing, `deleted`
  the sequence of deletion requests issued, `calls` the ffmpeg invocations
  made, `execs` the operations successfully executed, in order.
-/

/-- A serde_json number: either integer-represented or float-represented.
The `f64` payload is modelled as an exact rational. -/
inductive JNum where
  | int : Int → JNum
  | float : ℚ → JNum

/-- A serde_json value. -/
inductive JValue where
  | null : JValue
  | bool : Bool → JValue
  | num : JNum → JValue
  | str : String → JValue
  | arr : List JValue → JValue
  | obj : List (String × JValue) → JValue

namespace JValue

/-- `serde_json::Value::as_f64`: succeeds on any number (integers are cast). -/
def as_f64 : JValue → Option ℚ
  | .num (.int n) => some (n : ℚ)
  | .num (.float q) => some q
  | _ => none

/-- `serde_json::Value::as_i64`: succeeds only on integer-represented numbers;
a float-represented number (e.g. the JSON literal `2.5`, or even `2.0`)
yields `None`. -/
def as_i64 : JValue → Option Int
  | .num (.int n) => some n
  | _ => none

/-- `serde_json::Value::as_str`. -/
def as_str : JValue → Option String
  | .str s => some s
  | _ => none

end JValue

/-- The `parameters` field of a request: `HashMap<String, serde_json::Value>`. -/
def Params := List (String × JValue)

/-- `parameters.get(key)` (hash-map lookup; first match). -/
def getParam (parameters : Params) (key : String) : Option JValue :=
  (List.find? (fun kv => kv.1 == key) parameters).map (·.2)

/-- `parameters.get(key).and_then(|v| v.as_f64()).unwrap_or(dflt)`. -/
def getF64 (parameters : Params) (key : String) (dflt : ℚ) : ℚ :=
  ((getParam parameters key).bind JValue.as_f64).getD dflt

/-- `parameters.get(key).and_then(|v| v.as_i64()).unwrap_or(dflt)`. -/
def getI64 (parameters : Params) (key : String) (dflt : Int) : Int :=
  ((getParam parameters key).bind JValue.as_i64).getD dflt

/-- `parameters.get(key).and_then(|v| v.as_str()).unwrap_or(dflt)`. -/
def getStr (parameters : Params) (key : String) (dflt : String) : String :=
  ((getParam parameters key).bind JValue.as_str).getD dflt

/-- Decimal digits of the fractional part `r / d` (`0 < r < d`), with fuel.
Terminates within the fuel for every dyadic rational (every `f64` value). -/
def fracDigits : Nat → Nat → Nat → String
  | 0, _, _ => ""
  | _, 0, _ => ""
  | fuel + 1, r, d =>
    let r10 := r * 10
    toString (r10 / d) ++ fracDigits fuel (r10 % d) d

/-- Rust `f64::to_string` / `format!` display, on the rational model:
integers print without a decimal point, other values print their (finite,
for dyadic rationals) decimal expansion. -/
def fmtQ (q : ℚ) : String :=
  let sign := if q < 0 then "-" else ""
  let n := q.num.natAbs
  let d := q.den
  if n % d = 0 then sign ++ toString (n / d)
  else sign ++ toString (n / d) ++ "." ++ fracDigits 1200 (n % d) d

/-- The three hardcoded `-vf` filter-graph presets of the `applyFilter` branch
(the inner `match filter` of `process_single_operation`): "cinematic",
"vintage", and the generic fallback for any other value. -/
def presetOf (filter : String) : String :=
  match filter with
  | "cinematic" =>
    "eq=contrast=1.2:brightness=0.1:saturation=1.1,curves=all='0/0 0.5/0.58 1/1'"
  | "vintage" =>
    "eq=contrast=0.9:brightness=0.05:saturation=0.8,colorchannelmixer=.393:.769:.189:0:.349:.686:.168:0:.272:.534:.131"
  | _ => "eq=contrast=1.1:brightness=0.05"

/-- The per-operation middle of the ffmpeg argument list built by the `match`
in `process_single_operation` (main.rs lines 148–227): everything between
`["-i", input_path]` and `["-y", output_str]`, or the unsupported-operation
error. -/
def compileMid (operation : String) (parameters : Params) :
    Except String (List String) :=
  match operation with
  | "adjustBrightness" =>
    let brightness := getF64 parameters "brightness" 0 / 100
    .ok ["-vf", "eq=brightness=" ++ fmtQ brightness]
  | "adjustSpeed" =>
    let speed := getF64 parameters "speed" 1
    .ok ["-vf", "setpts=" ++ fmtQ (1 / speed) ++ "*PTS",
         "-af", "atempo=" ++ fmtQ speed]
  | "trimVideo" =>
    let start_time := getF64 parameters "startTime" 0
    let end_time := (getParam parameters "endTime").bind JValue.as_f64
    .ok (["-ss", fmtQ start_time] ++
      (match end_time with
       | some e => ["-t", fmtQ (e - start_time)]
       | none => []))
  | "cropVideo" =>
    let x := getI64 parameters "x" 0
    let y := getI64 parameters "y" 0
    let width := getI64 parameters "width" 1920
    let height := getI64 parameters "height" 1080
    .ok ["-vf", "crop=" ++ toString width ++ ":" ++ toString height ++ ":" ++
         toString x ++ ":" ++ toString y]
  | "addText" =>
    let text := getStr parameters "text" "Sample Text"
    let position := getStr parameters "position" "center"
    let y_pos : String :=
      match position with
      | "top" => "50"
      | "bottom" => "h-th-50"
      | _ => "(h-th)/2"
    .ok ["-vf", "drawtext=text='" ++ text ++
         "':fontcolor=white:fontsize=24:x=(w-tw)/2:y=" ++ y_pos]
  | "applyFilter" =>
    let filter := getStr parameters "filter" "cinematic"
    .ok ["-vf", presetOf filter]
  | _ => .error ("Unsupported operation: " ++ operation)

/-- The full argument list of `process_single_operation`: it starts as
`vec!["-i", input_path]`, is extended by the operation `match`, and (on the
supported branches) finally gets `["-y", &output_str]` appended.  On the
unsupported branch the function returns the error before touching anything. -/
def compileArgs (input_path operation : String) (parameters : Params)
    (output_str : String) : Except String (List String) :=
  match compileMid operation parameters with
  | .error e => .error e
  | .ok mid => .ok (["-i", input_path] ++ mid ++ ["-y", output_str])

/-- The six operation kinds of the `match` in `process_single_operation`. -/
def supportedOps : List String :=
  ["adjustBrightness", "adjustSpeed", "trimVideo", "cropVideo", "addText",
   "applyFilter"]

/-- Outcome of one external `ffmpeg` process execution (`Command::output`):
exit status success flag, captured stdout and stderr. -/
structure ExecResult where
  success : Bool
  stdout : String
  stderr : String

/-- `VideoProcessor::run_ffmpeg`: run the external capability, return stdout on
success, `FFmpeg failed: <stderr>` on failure. -/
def run_ffmpeg (exec : List String → ExecResult) (args : List String) :
    Except String String :=
  let output := exec args
  if output.success then .ok output.stdout
  else .error ("FFmpeg failed: " ++ output.stderr)

/-- `VideoProcessor::process_single_operation`: build the argument list for the
operation, run ffmpeg on it, and return the freshly allocated output path. -/
def process_single_operation (exec : List String → ExecResult)
    (input_path operation : String) (parameters : Params)
    (output_str : String) : Except String String :=
  match compileArgs input_path operation parameters output_str with
  | .error e => .error e
  | .ok args =>
    match run_ffmpeg exec args with
    | .error e => .error e
    | .ok _ => .ok output_str

/-- One batch operation (`struct Operation`): kind (`type`), parameter bag,
and sequencing `order` (Rust `u32`, modelled as `Nat`). -/
structure Operation where
  op_type : String
  parameters : Params
  order : Nat

/-- The comparator used by `sorted_ops.sort_by_key(|op| op.order)`. -/
def orderLE (a b : Operation) : Bool :=
  decide (a.order ≤ b.order)

/-- Observable state of one batch run: the pipeline frontier (`current_input`),
the pipeline-created files currently existing in the `WorkingArea`, the
deletion requests issued (in order), the ffmpeg invocations made (in order),
and the operations successfully executed (in order). -/
structure BatchState where
  current : String
  files : List String
  deleted : List String
  calls : List (List String)
  execs : List Operation

/-- State at the head of `process_batch_operations`:
`current_input = input_path`, nothing created, deleted, called or executed. -/
def initState (input_path : String) : BatchState :=
  { current := input_path, files := [], deleted := [], calls := [], execs := [] }

/-- The `for operation in sorted_ops` loop of `process_batch_operations`,
starting at step index `i` (the index into the fresh-name supply `names`) in
state `st`.  Each iteration runs `process_single_operation` on the current
frontier (inlined here so that its ffmpeg invocation and the created output
file are recorded in the trace), then deletes the previous frontier unless it
is the original `input_path`, then advances the frontier to the new output. -/
def processBatchFrom (exec : List String → ExecResult)
    (input_path : String) (names : Nat → String) :
    Nat → BatchState → List Operation → BatchState × Except String String
  | _, st, [] => (st, .ok st.current)
  | i, st, op :: rest =>
    match compileArgs st.current op.op_type op.parameters (names i) with
    | .error e => (st, .error e)
    | .ok args =>
      match run_ffmpeg exec args with
      | .error e => ({ st with calls := st.calls ++ [args] }, .error e)
      | .ok _ =>
        processBatchFrom exec input_path names (i + 1)
          { current := names i
            files :=
              let files1 := names i :: st.files
              if st.current = input_path then files1 else files1.erase st.current
            deleted :=
              if st.current = input_path then st.deleted
              else st.deleted ++ [st.current]
            calls := st.calls ++ [args]
            execs := st.execs ++ [op] } rest

/-- `VideoProcessor::process_batch_operations`: stable-sort the operations by
`order`, then fold the per-operation loop over the sorted list starting from
the original input. -/
def process_batch_operations (exec : List String → ExecResult)
    (input_path : String) (names : Nat → String)
    (operations : List Operation) : BatchState × Except String String :=
  let sorted_ops := operations.mergeSort orderLE
  processBatchFrom exec input_path names 0 (initState input_path) sorted_ops

/-- The middle of the compiled argument list of a supported operation. -/
def midArgs (operation : String) (parameters : Params) : List String :=
  match compileMid operation parameters with
  | .ok mid => mid
  | .error _ => []

/-- Expected sequence of ffmpeg invocations for a list of (supported)
operations executed from step index `i` with frontier `cur`: each invocation
reads the previous step's output and writes the step's fresh name. -/
def callsSpec (names : Nat → String) : Nat → String → List Operation → List (List String)
  | _, _, [] => []
  | i, cur, op :: rest =>
    (["-i", cur] ++ midArgs op.op_type op.parameters ++ ["-y", names i]) ::
      callsSpec names (i + 1) (names i) rest

/-- Expected sequence of deletion requests over `n` successful steps from step
index `i` with frontier `cur`: each step deletes the frontier it consumed,
unless that frontier is the original input. -/
def deletedSpec (names : Nat → String) (input_path : String) :
    Nat → String → Nat → List String
  | _, _, 0 => []
  | i, cur, n + 1 =>
    (if cur = input_path then [] else [cur]) ++
      deletedSpec names input_path (i + 1) (names i) n

/-! ## Helper lemmas -/

/-- Every supported operation kind compiles to its middle argument list. -/
theorem compileMid_eq_of_supported {operation : String}
    (h : operation ∈ supportedOps) (parameters : Params) :
    compileMid operation parameters = .ok (midArgs operation parameters) := by
  simp only [supportedOps, List.mem_cons, List.not_mem_nil, or_false] at h
  rcases h with rfl | rfl | rfl | rfl | rfl | rfl <;> rfl

/-- Every unsupported operation kind fails with the naming error. -/
theorem compileMid_eq_of_unsupported {operation : String}
    (h : operation ∉ supportedOps) (parameters : Params) :
    compileMid operation parameters =
      .error ("Unsupported operation: " ++ operation) := by
  rw [compileMid.eq_def]
  split <;> simp_all [supportedOps]

/-- Full argument list of a supported operation. -/
theorem compileArgs_eq_of_supported {operation : String}
    (h : operation ∈ supportedOps) (input_path : String) (parameters : Params)
    (output_str : String) :
    compileArgs input_path operation parameters output_str =
      .ok (["-i", input_path] ++ midArgs operation parameters ++
           ["-y", output_str]) := by
  simp [compileArgs, compileMid_eq_of_supported h]

/-- `run_ffmpeg` succeeds whenever the external process does. -/
theorem run_ffmpeg_ok {exec : List String → ExecResult}
    (hexec : ∀ a, (exec a).success = true) (args : List String) :
    run_ffmpeg exec args = .ok (exec args).stdout := by
  simp [run_ffmpeg, hexec]

/-- One successful step of the batch loop, as an equation. -/
theorem processBatchFrom_cons_ok {exec : List String → ExecResult}
    (hexec : ∀ a, (exec a).success = true) (input_path : String)
    (names : Nat → String) (i : Nat) (st : BatchState) (op : Operation)
    (rest : List Operation) (hop : op.op_type ∈ supportedOps) :
    processBatchFrom exec input_path names i st (op :: rest) =
      processBatchFrom exec input_path names (i + 1)
        { current := names i
          files := if st.current = input_path then names i :: st.files
                   else (names i :: st.files).erase st.current
          deleted := if st.current = input_path then st.deleted
                     else st.deleted ++ [st.current]
          calls := st.calls ++
            [["-i", st.current] ++ midArgs op.op_type op.parameters ++
              ["-y", names i]]
          execs := st.execs ++ [op] } rest := by
  have hc := compileArgs_eq_of_supported hop st.current op.parameters (names i)
  simp only [processBatchFrom, hc, run_ffmpeg_ok hexec]

/-- Characterization of a fully successful batch run from an arbitrary state:
it returns the last fresh name as the new frontier, executes exactly the given
operations in order, issues exactly the threaded ffmpeg invocations, and
issues exactly the expected deletions. -/
theorem processBatchFrom_success {exec : List String → ExecResult}
    (hexec : ∀ a, (exec a).success = true) (input_path : String)
    (names : Nat → String) :
    ∀ (l : List Operation) (i : Nat) (st : BatchState),
      (∀ op ∈ l, op.op_type ∈ supportedOps) →
      (processBatchFrom exec input_path names i st l).2 =
        .ok ((processBatchFrom exec input_path names i st l).1.current) ∧
      (processBatchFrom exec input_path names i st l).1.current =
        (if l.isEmpty then st.current else names (i + l.length - 1)) ∧
      (processBatchFrom exec input_path names i st l).1.execs = st.execs ++ l ∧
      (processBatchFrom exec input_path names i st l).1.calls =
        st.calls ++ callsSpec names i st.current l ∧
      (processBatchFrom exec input_path names i st l).1.deleted =
        st.deleted ++ deletedSpec names input_path i st.current l.length := by
  intro l
  induction l with
  | nil =>
    intro i st _
    simp [processBatchFrom, callsSpec, deletedSpec]
  | cons op rest ih =>
    intro i st hl
    have hop : op.op_type ∈ supportedOps := hl op (List.mem_cons_self _ _)
    have hrest : ∀ o ∈ rest, o.op_type ∈ supportedOps :=
      fun o ho => hl o (List.mem_cons_of_mem _ ho)
    rw [processBatchFrom_cons_ok hexec input_path names i st op rest hop]
    obtain ⟨h1, h2, h3, h4, h5⟩ := ih (i + 1)
      { current := names i
        files := if st.current = input_path then names i :: st.files
                 else (names i :: st.files).erase st.current
        deleted := if st.current = input_path then st.deleted
                   else st.deleted ++ [st.current]
        calls := st.calls ++
          [["-i", st.current] ++ midArgs op.op_type op.parameters ++
            ["-y", names i]]
        execs := st.execs ++ [op] } hrest
    refine ⟨h1, h2.trans ?_, h3.trans ?_, h4.trans ?_, h5.trans ?_⟩
    · cases rest with
      | nil => simp
      | cons b t =>
        simp only [List.isEmpty_cons, List.length_cons, if_neg Bool.false_ne_true]
        congr 1
        omega
    · simp
    · simp [callsSpec, List.append_assoc]
    · by_cases hcur : st.current = input_path <;>
        simp [deletedSpec, hcur, List.append_assoc, List.length_cons]

/-- Reachable-state invariant of the batch loop under fresh names: at every
point, the only pipeline-created file still existing is the current frontier
(and none, while the frontier is still the original input). -/
theorem processBatchFrom_files {exec : List String → ExecResult}
    (hexec : ∀ a, (exec a).success = true) (input_path : String)
    (names : Nat → String) :
    ∀ (l : List Operation) (i : Nat) (st : BatchState),
      (∀ op ∈ l, op.op_type ∈ supportedOps) →
      st.files = (if st.current = input_path then [] else [st.current]) →
      (∀ k, i ≤ k → k < i + l.length →
        names k ≠ input_path ∧ names k ≠ st.current) →
      (∀ k k', i ≤ k → k < k' → k' < i + l.length → names k ≠ names k') →
      (processBatchFrom exec input_path names i st l).1.files =
        (if (processBatchFrom exec input_path names i st l).1.current = input_path
         then [] else [(processBatchFrom exec input_path names i st l).1.current]) := by
  intro l
  induction l with
  | nil =>
    intro i st _ hfiles _ _
    simpa [processBatchFrom] using hfiles
  | cons op rest ih =>
    intro i st hl hfiles hfresh hinj
    have hop : op.op_type ∈ supportedOps := hl op (List.mem_cons_self _ _)
    have hrest : ∀ o ∈ rest, o.op_type ∈ supportedOps :=
      fun o ho => hl o (List.mem_cons_of_mem _ ho)
    rw [processBatchFrom_cons_ok hexec input_path names i st op rest hop]
    have hi : names i ≠ input_path ∧ names i ≠ st.current :=
      hfresh i (Nat.le_refl i) (by simp only [List.length_cons]; omega)
    apply ih (i + 1)
    · exact hrest
    · by_cases hcur : st.current = input_path
      · simp [hcur, hfiles, hi.1]
      · simp only [hfiles, if_neg hcur]
        rw [List.erase_cons, if_neg (by simpa using hi.2)]
        simp [hi.1]
    · intro k hk1 hk2
      refine ⟨(hfresh k (by omega) (by simp only [List.length_cons]; omega)).1, ?_⟩
      exact fun hkEq => hinj i k (Nat.le_refl i) (by omega)
        (by simp only [List.length_cons]; omega) hkEq.symm |>.elim
    · intro k k' hk1 hk2 hk3
      exact hinj k k' (by omega) hk2 (by simp only [List.length_cons]; omega)

/-- Closed form of `deletedSpec` once the frontier has left the original
input: every subsequent step deletes the previous fresh name. -/
theorem deletedSpec_after_first (names : Nat → String) (input_path : String) :
    ∀ (m i : Nat), (∀ k, k < m → names (i + k) ≠ input_path) →
      deletedSpec names input_path (i + 1) (names i) m =
        (List.range m).map (fun k => names (i + k)) := by
  intro m
  induction m with
  | zero => intro i _; simp [deletedSpec]
  | succ j ih =>
    intro i h
    have h0 : names i ≠ input_path := by simpa using h 0 (Nat.succ_pos j)
    rw [deletedSpec, if_neg h0]
    rw [ih (i + 1) (fun k hk => by
      have h2 := h (k + 1) (by omega)
      have h3 : i + 1 + k = i + (k + 1) := by omega
      rw [h3]; exact h2)]
    rw [List.range_succ_eq_map]
    simp only [List.map_cons, List.map_map, Nat.add_zero, List.singleton_append]
    congr 1
    apply List.map_congr_left
    intro x _
    simp only [Function.comp_apply]
    congr 1
    omega

/-- The deletion trace of a successful `N`-step run started at the original
input consists exactly of the first `N - 1` fresh names. -/
theorem deletedSpec_from_input (names : Nat → String) (input_path : String)
    (N : Nat) (hN : 1 ≤ N) (h : ∀ k, k < N - 1 → names k ≠ input_path) :
    deletedSpec names input_path 0 input_path N =
      (List.range (N - 1)).map names := by
  obtain ⟨m, rfl⟩ : ∃ m, N = m + 1 := ⟨N - 1, by omega⟩
  rw [deletedSpec, if_pos rfl]
  have h4 := deletedSpec_after_first names input_path m 0
    (fun k hk => by simpa using h k (by omega))
  simpa using h4

/-- Splitting a batch run across an append: the suffix runs only if the whole
prefix succeeded, starting from the prefix's final state and step index. -/
theorem processBatchFrom_append (exec : List String → ExecResult)
    (input_path : String) (names : Nat → String) :
    ∀ (l1 l2 : List Operation) (i : Nat) (st : BatchState),
      processBatchFrom exec input_path names i st (l1 ++ l2) =
        match processBatchFrom exec input_path names i st l1 with
        | (st1, .ok _) =>
          processBatchFrom exec input_path names (i + l1.length) st1 l2
        | (st1, .error e) => (st1, .error e) := by
  intro l1
  induction l1 with
  | nil =>
    intro l2 i st
    simp [processBatchFrom]
  | cons op rest ih =>
    intro l2 i st
    simp only [List.cons_append, processBatchFrom]
    cases hc : compileArgs st.current op.op_type op.parameters (names i) with
    | error e => simp
    | ok args =>
      simp only []
      cases hr : run_ffmpeg exec args with
      | error e => simp
      | ok out =>
        simp only [List.append_eq]
        rw [ih l2 (i + 1)]
        have hlen : i + 1 + rest.length = i + (op :: rest).length := by
          simp only [List.length_cons]; omega
        rw [hlen]

/-- `orderLE` is transitive. -/
theorem orderLE_trans : ∀ a b c : Operation,
    orderLE a b → orderLE b c → orderLE a c := by
  intro a b c hab hbc
  simp only [orderLE, decide_eq_true_eq] at *
  omega

/-- `orderLE` is total. -/
theorem orderLE_total : ∀ a b : Operation, orderLE a b || orderLE b a := by
  intro a b
  simp only [orderLE, Bool.or_eq_true, decide_eq_true_eq]
  omega

/-! ## Claim theorems -/

/-- C10: running a batch with an empty operations list succeeds with the
original input path unchanged, with no ffmpeg invocation, no file created and
no deletion (the final state is the initial state). -/
theorem batch_empty_returns_input (exec : List String → ExecResult)
    (input_path : String) (names : Nat → String) :
    process_batch_operations exec input_path names [] =
      (initState input_path, .ok input_path) := by
  simp [process_batch_operations, processBatchFrom, initState]

/-- C9: a batch consisting of exactly one operation returns the same result
(same output path on success, same error on failure) as processing that single
operation directly with the same fresh output name, and deletes no file. -/
theorem batch_singleton_eq_single (exec : List String → ExecResult)
    (input_path : String) (names : Nat → String) (op : Operation) :
    (process_batch_operations exec input_path names [op]).2 =
      process_single_operation exec input_path op.op_type op.parameters
        (names 0) ∧
    (process_batch_operations exec input_path names [op]).1.deleted = [] := by
  unfold process_batch_operations process_single_operation
  rw [List.mergeSort_singleton]
  simp only [processBatchFrom, initState]
  cases hc : compileArgs input_path op.op_type op.parameters (names 0) with
  | error e => simp
  | ok args =>
    simp only []
    cases hr : run_ffmpeg exec args with
    | error e => simp
    | ok out => simp [processBatchFrom]

/-- C6: every operation kind outside the six supported ones is rejected by the
compiler with an error naming the kind; the single-operation processor
propagates exactly that error without invoking ffmpeg, and a batch containing
only that operation ends in its initial state (no invocation, no file created,
no deletion) with the same error. -/
theorem unsupported_op_rejected (operation : String)
    (h : operation ∉ supportedOps) (parameters : Params)
    (input_path output_str : String) (exec : List String → ExecResult)
    (names : Nat → String) (ord : Nat) :
    compileArgs input_path operation parameters output_str =
      .error ("Unsupported operation: " ++ operation) ∧
    process_single_operation exec input_path operation parameters output_str =
      .error ("Unsupported operation: " ++ operation) ∧
    process_batch_operations exec input_path names
        [{ op_type := operation, parameters := parameters, order := ord }] =
      (initState input_path, .error ("Unsupported operation: " ++ operation)) := by
  have hm := compileMid_eq_of_unsupported h parameters
  have hca : compileArgs input_path operation parameters output_str =
      .error ("Unsupported operation: " ++ operation) := by
    simp [compileArgs, hm]
  refine ⟨hca, ?_, ?_⟩
  · simp [process_single_operation, hca]
  · simp [process_batch_operations, List.mergeSort_singleton, processBatchFrom,
      initState, compileArgs, hm]

/-- Witness for C6 at the concrete unsupported kind "rotate". -/
theorem unsupported_op_rejected_witness :
    compileArgs "in.mp4" "rotate" [] "out.mp4" =
      .error ("Unsupported operation: " ++ "rotate") ∧
    process_single_operation (fun _ => ⟨true, "", ""⟩) "in.mp4" "rotate" []
        "out.mp4" =
      .error ("Unsupported operation: " ++ "rotate") ∧
    process_batch_operations (fun _ => ⟨true, "", ""⟩) "in.mp4"
        (fun k => toString k)
        [{ op_type := "rotate", parameters := [], order := 0 }] =
      (initState "in.mp4", .error ("Unsupported operation: " ++ "rotate")) :=
  unsupported_op_rejected "rotate" (by decide) [] "in.mp4" "out.mp4"
    (fun _ => ⟨true, "", ""⟩) (fun k => toString k) 0

/-- C1 (refuting the claimed escaping): the user-supplied overlay text is
embedded verbatim between single quotes in the drawtext filter expression,
with no escaping whatsoever — a text value containing a single quote (here
"a'b") terminates the drawtext text field early.  The second conjunct shows
that for every text value the emitted expression is the raw concatenation. -/
theorem addText_quote_unescaped :
    compileArgs "in.mp4" "addText" [("text", JValue.str "a'b")] "out.mp4" =
      .ok ["-i", "in.mp4", "-vf",
        "drawtext=text='a'b':fontcolor=white:fontsize=24:x=(w-tw)/2:y=(h-th)/2",
        "-y", "out.mp4"] ∧
    (∀ text : String, compileMid "addText" [("text", JValue.str text)] =
      .ok ["-vf", "drawtext=text='" ++ text ++
        "':fontcolor=white:fontsize=24:x=(w-tw)/2:y=" ++ "(h-th)/2"]) :=
  ⟨rfl, fun _ => rfl⟩

/-- C2 (refuting fractional acceptance for crop): a fractional JSON number
supplied for the crop parameter `width` is not accepted — `as_i64` rejects it
and the declared default 1920 is used, exactly as if the key were absent. -/
theorem crop_fractional_uses_default :
    getI64 [("width", JValue.num (JNum.float (5 / 2)))] "width" 1920 = 1920 ∧
    compileArgs "in.mp4" "cropVideo"
        [("width", JValue.num (JNum.float (5 / 2)))] "out.mp4" =
      compileArgs "in.mp4" "cropVideo" [] "out.mp4" ∧
    compileArgs "in.mp4" "cropVideo"
        [("width", JValue.num (JNum.float (5 / 2)))] "out.mp4" =
      .ok ["-i", "in.mp4", "-vf", "crop=1920:1080:0:0", "-y", "out.mp4"] :=
  ⟨rfl, rfl, rfl⟩

/-- C2 (amended): parameter resolution is total and silent-default.  The
`as_f64`-based resolver accepts both integer- and float-represented numbers;
the `as_i64`-based resolver (used for the crop parameters x, y, width,
height) accepts only integer-represented numbers and falls back to the
default on float-represented ones; the string resolver accepts strings; every
other case yields the declared default, and no error is ever raised. -/
theorem param_resolution_total (parameters : Params) (key : String)
    (dq : ℚ) (dz : Int) (ds : String) :
    getF64 parameters key dq =
      (match getParam parameters key with
       | some (.num (.int n)) => (n : ℚ)
       | some (.num (.float q)) => q
       | _ => dq) ∧
    getI64 parameters key dz =
      (match getParam parameters key with
       | some (.num (.int n)) => n
       | _ => dz) ∧
    getStr parameters key ds =
      (match getParam parameters key with
       | some (.str s) => s
       | _ => ds) := by
  unfold getF64 getI64 getStr
  cases hv : getParam parameters key with
  | none => simp
  | some v =>
    rcases v with _ | b | n | s | a | o
    · simp [JValue.as_f64, JValue.as_i64, JValue.as_str]
    · simp [JValue.as_f64, JValue.as_i64, JValue.as_str]
    · rcases n with n | q <;> simp [JValue.as_f64, JValue.as_i64, JValue.as_str]
    · simp [JValue.as_f64, JValue.as_i64, JValue.as_str]
    · simp [JValue.as_f64, JValue.as_i64, JValue.as_str]
    · simp [JValue.as_f64, JValue.as_i64, JValue.as_str]

/-- C8: the trim compiler seeks to startTime (default 0); with endTime present
it limits the duration to endTime − startTime, with endTime absent it emits no
duration limit; the spec's examples {startTime 5, endTime 15} (10-second
duration at offset 5) and {startTime 5} (open-ended) compile accordingly. -/
theorem trim_compiles_seek_and_duration (input_path : String)
    (parameters : Params) (output_str : String) :
    compileArgs input_path "trimVideo" parameters output_str =
      .ok (["-i", input_path] ++
        (["-ss", fmtQ (getF64 parameters "startTime" 0)] ++
          (match (getParam parameters "endTime").bind JValue.as_f64 with
           | some e => ["-t", fmtQ (e - getF64 parameters "startTime" 0)]
           | none => [])) ++ ["-y", output_str]) ∧
    compileArgs input_path "trimVideo"
        [("startTime", JValue.num (JNum.int 5)),
         ("endTime", JValue.num (JNum.int 15))] output_str =
      .ok ["-i", input_path, "-ss", "5", "-t", "10", "-y", output_str] ∧
    compileArgs input_path "trimVideo"
        [("startTime", JValue.num (JNum.int 5))] output_str =
      .ok ["-i", input_path, "-ss", "5", "-y", output_str] := by
  refine ⟨rfl, ?_, ?_⟩
  · have h : getF64 [("startTime", JValue.num (JNum.int 5)),
        ("endTime", JValue.num (JNum.int 15))] "startTime" 0 = 5 := by
      simp [getF64, getParam, JValue.as_f64]
    simp [compileArgs, compileMid, h, getParam, JValue.as_f64]
    norm_num
    constructor
    · rfl
    · show fmtQ 10 = "10"
      rfl
  · have h : getF64 [("startTime", JValue.num (JNum.int 5))] "startTime" 0
        = 5 := by
      simp [getF64, getParam, JValue.as_f64]
    simp [compileArgs, compileMid, h, getParam, JValue.as_f64]
    rfl

/-- C7: for every supported operation kind and every parameter bag, the
compiled argument list begins with the input designation `["-i", input_path]`
(the input path string embedded untouched), ends with the overwrite flag and
the output path `["-y", output_str]`, and — whenever the freshly allocated
output path does not collide with any earlier argument — contains the output
path exactly once. -/
theorem compiled_args_structure (operation : String)
    (h : operation ∈ supportedOps) (input_path : String) (parameters : Params)
    (output_str : String) :
    ∃ mid, compileArgs input_path operation parameters output_str =
        .ok (["-i", input_path] ++ mid ++ ["-y", output_str]) ∧
      (output_str ∉ ["-i", input_path] ++ mid → output_str ≠ "-y" →
        (["-i", input_path] ++ mid ++ ["-y", output_str]).count output_str
          = 1) := by
  refine ⟨midArgs operation parameters,
    compileArgs_eq_of_supported h input_path parameters output_str, ?_⟩
  intro h1 h2
  rw [List.count_append, List.count_eq_zero.mpr h1]
  simp [List.count_cons, h2]

/-- Witness for C7 at a concrete supported kind and fresh output path. -/
theorem compiled_args_structure_witness :
    ∃ mid, compileArgs "in.mp4" "adjustSpeed" [] "out.mp4" =
        .ok (["-i", "in.mp4"] ++ mid ++ ["-y", "out.mp4"]) ∧
      ("out.mp4" ∉ ["-i", "in.mp4"] ++ mid → "out.mp4" ≠ "-y" →
        (["-i", "in.mp4"] ++ mid ++ ["-y", "out.mp4"]).count "out.mp4" = 1) :=
  compiled_args_structure "adjustSpeed" (by decide) "in.mp4" [] "out.mp4"

/-- C5: a successful batch of N operations executes exactly N steps; the
executed sequence is the stable sort of the input by `order` — a permutation
of the input, ascending in `order`, preserving the input order of any pair
that is already ascending (in particular of ties); and the invocation trace
threads each step's fresh output path as the next step's input path. -/
theorem batch_order_and_threading (exec : List String → ExecResult)
    (hexec : ∀ a, (exec a).success = true) (input_path : String)
    (names : Nat → String) (operations : List Operation)
    (hsup : ∀ op ∈ operations, op.op_type ∈ supportedOps) :
    (process_batch_operations exec input_path names operations).1.execs =
      operations.mergeSort orderLE ∧
    (process_batch_operations exec input_path names operations).1.execs.length
      = operations.length ∧
    (process_batch_operations exec input_path names operations).1.calls =
      callsSpec names 0 input_path (operations.mergeSort orderLE) ∧
    (process_batch_operations exec input_path names operations).1.execs.Perm
      operations ∧
    (process_batch_operations exec input_path names
        operations).1.execs.Pairwise (fun a b => a.order ≤ b.order) ∧
    (∀ a b : Operation, [a, b].Sublist operations → a.order ≤ b.order →
      [a, b].Sublist
        (process_batch_operations exec input_path names operations).1.execs)
    := by
  have hsort : ∀ op ∈ operations.mergeSort orderLE,
      op.op_type ∈ supportedOps :=
    fun op hop => hsup op (List.mem_mergeSort.mp hop)
  obtain ⟨h1, h2, h3, h4, h5⟩ :=
    processBatchFrom_success hexec input_path names
      (operations.mergeSort orderLE) 0 (initState input_path) hsort
  have hex : (process_batch_operations exec input_path names
      operations).1.execs = operations.mergeSort orderLE := by
    simpa [process_batch_operations, initState] using h3
  refine ⟨hex, ?_, ?_, ?_, ?_, ?_⟩
  · rw [hex, List.length_mergeSort]
  · simpa [process_batch_operations, initState] using h4
  · rw [hex]; exact List.mergeSort_perm operations orderLE
  · rw [hex]
    have := List.sorted_mergeSort orderLE_trans orderLE_total operations
    exact this.imp (fun hab => by simpa [orderLE] using hab)
  · intro a b hab hle
    rw [hex]
    exact List.pair_sublist_mergeSort orderLE_trans orderLE_total
      (by simp [orderLE, hle]) hab

/-- Witness for C5: a concrete two-operation batch with out-of-order `order`
fields executes exactly two steps. -/
theorem batch_order_and_threading_witness :
    (process_batch_operations (fun _ => ⟨true, "", ""⟩) "in.mp4"
        (fun k => toString k)
        [{ op_type := "cropVideo", parameters := [], order := 2 },
         { op_type := "trimVideo", parameters := [], order := 1 }]).1.execs.length
      = 2 :=
  (batch_order_and_threading (fun _ => ⟨true, "", ""⟩) (fun _ => rfl) "in.mp4"
    (fun k => toString k)
    [{ op_type := "cropVideo", parameters := [], order := 2 },
     { op_type := "trimVideo", parameters := [], order := 1 }]
    (by decide)).2.1

/-- C4: if, after a successful prefix of the sorted batch, some step fails
(either its compilation or its ffmpeg invocation), then the batch reports
exactly that step's error and its whole outcome — final state included —
is the one of running only the prefix plus the failing step: no operation
sorted after the failing step is compiled or invoked. -/
theorem batch_abort_on_failure (exec : List String → ExecResult)
    (input_path : String) (names : Nat → String)
    (operations l1 : List Operation) (op : Operation) (l2 : List Operation)
    (hsplit : operations.mergeSort orderLE = l1 ++ op :: l2) (c : String)
    (hpre : (processBatchFrom exec input_path names 0 (initState input_path)
        l1).2 = .ok c)
    (e : String)
    (hfail : (processBatchFrom exec input_path names l1.length
        (processBatchFrom exec input_path names 0 (initState input_path)
          l1).1 [op]).2 = .error e) :
    (process_batch_operations exec input_path names operations).2 = .error e ∧
    process_batch_operations exec input_path names operations =
      processBatchFrom exec input_path names 0 (initState input_path)
        (l1 ++ [op]) := by
  have hsplit2 : operations.mergeSort orderLE = (l1 ++ [op]) ++ l2 := by
    simpa [List.append_assoc] using hsplit
  unfold process_batch_operations
  rw [hsplit2, processBatchFrom_append]
  have happ := processBatchFrom_append exec input_path names l1 [op] 0
    (initState input_path)
  rcases hres : processBatchFrom exec input_path names 0
      (initState input_path) l1 with ⟨st1, r1⟩
  rw [hres] at hpre hfail happ
  have hr1 : r1 = .ok c := hpre
  subst hr1
  simp only [Nat.zero_add] at happ
  dsimp only at hfail happ
  rw [happ]
  rcases hstep : processBatchFrom exec input_path names l1.length st1 [op]
    with ⟨st2, r2⟩
  rw [hstep] at hfail
  have hr2 : r2 = .error e := hfail
  subst hr2
  constructor <;> simp

/-- Witness for C4: a batch whose only step's ffmpeg invocation fails reports
exactly that step's error, and its outcome ignores everything after it. -/
theorem batch_abort_on_failure_witness :
    (process_batch_operations (fun _ => ⟨false, "", "boom"⟩) "in.mp4"
        (fun k => toString k)
        [{ op_type := "trimVideo", parameters := [], order := 0 }]).2 =
      .error "FFmpeg failed: boom" ∧
    process_batch_operations (fun _ => ⟨false, "", "boom"⟩) "in.mp4"
        (fun k => toString k)
        [{ op_type := "trimVideo", parameters := [], order := 0 }] =
      processBatchFrom (fun _ => ⟨false, "", "boom"⟩) "in.mp4"
        (fun k => toString k) 0 (initState "in.mp4")
        ([] ++ [{ op_type := "trimVideo", parameters := [], order := 0 }]) :=
  batch_abort_on_failure (fun _ => ⟨false, "", "boom"⟩) "in.mp4"
    (fun k => toString k)
    [{ op_type := "trimVideo", parameters := [], order := 0 }] []
    { op_type := "trimVideo", parameters := [], order := 0 } []
    (by simp) "in.mp4" rfl "FFmpeg failed: boom" rfl

/-- C3: in a successful batch of N ≥ 2 operations with fresh output names,
the batch returns the last fresh name; exactly one pipeline-created file
remains in the working area (the final output); the deletion requests are
exactly the earlier fresh names (each frontier deleted once superseded); and
the original source input is never deleted. -/
theorem batch_cleanup_invariant (exec : List String → ExecResult)
    (hexec : ∀ a, (exec a).success = true) (input_path : String)
    (names : Nat → String) (operations : List Operation)
    (hsup : ∀ op ∈ operations, op.op_type ∈ supportedOps)
    (hN : 2 ≤ operations.length)
    (hfresh : ∀ k, k < operations.length → names k ≠ input_path)
    (hinj : ∀ k k', k < k' → k' < operations.length → names k ≠ names k') :
    (process_batch_operations exec input_path names operations).2 =
      .ok (names (operations.length - 1)) ∧
    (process_batch_operations exec input_path names operations).1.files =
      [names (operations.length - 1)] ∧
    (process_batch_operations exec input_path names operations).1.deleted =
      (List.range (operations.length - 1)).map names ∧
    input_path ∉
      (process_batch_operations exec input_path names operations).1.deleted
    := by
  have hlen : (operations.mergeSort orderLE).length = operations.length := by
    simp
  have hsort : ∀ op ∈ operations.mergeSort orderLE,
      op.op_type ∈ supportedOps :=
    fun op hop => hsup op (List.mem_mergeSort.mp hop)
  have hPdef : process_batch_operations exec input_path names operations =
      processBatchFrom exec input_path names 0 (initState input_path)
        (operations.mergeSort orderLE) := rfl
  obtain ⟨h1, h2, h3, h4, h5⟩ :=
    processBatchFrom_success hexec input_path names
      (operations.mergeSort orderLE) 0 (initState input_path) hsort
  have hE : (operations.mergeSort orderLE).isEmpty = false := by
    cases hc : operations.mergeSort orderLE with
    | nil => rw [hc] at hlen; simp at hlen; omega
    | cons a t => simp
  have hcur : (process_batch_operations exec input_path names
      operations).1.current = names (operations.length - 1) := by
    rw [hPdef, h2, hE]
    simp [hlen]
  have hfiles : (process_batch_operations exec input_path names
      operations).1.files =
      (if (process_batch_operations exec input_path names
            operations).1.current = input_path
       then []
       else [(process_batch_operations exec input_path names
              operations).1.current]) := by
    rw [hPdef]
    apply processBatchFrom_files hexec input_path names
      (operations.mergeSort orderLE) 0 (initState input_path) hsort
    · simp [initState]
    · intro k _ hk2
      rw [Nat.zero_add, hlen] at hk2
      exact ⟨hfresh k hk2, hfresh k hk2⟩
    · intro k k' _ hk2 hk3
      rw [Nat.zero_add, hlen] at hk3
      exact hinj k k' hk2 hk3
  have hlast : operations.length - 1 < operations.length := by omega
  have hdel : (process_batch_operations exec input_path names
      operations).1.deleted = (List.range (operations.length - 1)).map names
    := by
    rw [hPdef, h5]
    have := deletedSpec_from_input names input_path
      (operations.mergeSort orderLE).length (by omega)
      (fun k hk => hfresh k (by omega))
    rw [show (initState input_path).current = input_path from rfl, this]
    simp [initState, hlen]
  refine ⟨?_, ?_, hdel, ?_⟩
  · rw [hPdef] at hcur ⊢
    rw [h1, hcur]
  · rw [hfiles, hcur, if_neg (hfresh _ hlast)]
  · rw [hdel]
    simp only [List.mem_map, List.mem_range, not_exists, not_and]
    intro k hk
    exact hfresh k (by omega)

/-- Witness for C3: a concrete successful two-step batch leaves exactly the
final output and deletes exactly the first intermediate. -/
theorem batch_cleanup_invariant_witness :
    (process_batch_operations (fun _ => ⟨true, "", ""⟩) "in.mp4"
        (fun k => toString k)
        [{ op_type := "adjustBrightness", parameters := [], order := 0 },
         { op_type := "applyFilter", parameters := [], order := 1 }]).2 =
      .ok "1" ∧
    (process_batch_operations (fun _ => ⟨true, "", ""⟩) "in.mp4"
        (fun k => toString k)
        [{ op_type := "adjustBrightness", parameters := [], order := 0 },
         { op_type := "applyFilter", parameters := [], order := 1 }]).1.files =
      ["1"] := by
  have h := batch_cleanup_invariant (fun _ => ⟨true, "", ""⟩) (fun _ => rfl)
    "in.mp4" (fun k => toString k)
    [{ op_type := "adjustBrightness", parameters := [], order := 0 },
     { op_type := "applyFilter", parameters := [], order := 1 }]
    (by decide) (by decide) (by decide)
    (by intro k k' h1 h2
        simp only [List.length_cons, List.length_nil] at h2
        interval_cases k'
        · omega
        · interval_cases k
          decide)
  exact ⟨h.1, h.2.1⟩
